import Mathlib

/-!
A verification development for the codeview symbol-editing engine.

Source text is modelled as `List Char` (the sources involved are ASCII, so
byte indices and character indices coincide).  Node-kind tags, symbol names
and error messages are Lean `String`s.  The tree-sitter parser and the
declarative query engine are external collaborators of the code under
verification; they are modelled as an abstract `Backend` supplying a parse
function and a query-match list, while every function of the editing engine
itself (`replace`, `delete`, `replace_body`, `batch`, `find_attr_start`,
`find_symbol_range`, `find_body_node`, `reindent_body`, `validate_result`,
`collapse_body`, ...) is translated directly from the source.
-/

namespace Codeview

/-! ### Basic text utilities (Rust `str` operations on `List Char`) -/

/-- Rust `char::is_whitespace`, restricted to the ASCII whitespace relevant
here (space, tab, carriage return, newline) — this is Lean's
`Char.isWhitespace`. -/
def isWs (c : Char) : Bool := c.isWhitespace

/-- Rust `str::trim_start`. -/
def trimStart (l : List Char) : List Char := l.dropWhile isWs

/-- Rust `str::trim_end`. -/
def trimEnd (l : List Char) : List Char := (l.reverse.dropWhile isWs).reverse

/-- Rust `str::trim`. -/
def trimBoth (l : List Char) : List Char := trimStart (trimEnd l)

/-- `line.trim().is_empty()` — the blank-line test used by `reindent_body`. -/
def isBlank (l : List Char) : Bool := (trimBoth l).isEmpty

/-- `l.len() - l.trim_start().len()` — the leading-whitespace width used by
`reindent_body` when computing the minimum indent. -/
def wsWidth (l : List Char) : Nat := l.length - (trimStart l).length

/-- The number of leading whitespace characters of a line. -/
def leadingWs (l : List Char) : Nat := (l.takeWhile isWs).length

/-- Split on newline characters, keeping empty segments
(`"a\n\nb" ↦ ["a", "", "b"]`, `"a\n" ↦ ["a", ""]`). -/
def splitNlAux : List Char → List Char → List (List Char)
  | [], acc => [acc.reverse]
  | c :: rest, acc =>
    if c = '\n' then acc.reverse :: splitNlAux rest []
    else splitNlAux rest (c :: acc)

/-- Rust `str::lines`: split at `'\n'`, strip one trailing `'\r'` from each
line, and do not produce a final empty line for a trailing newline. -/
def rustLines (s : List Char) : List (List Char) :=
  if s.isEmpty then []
  else
    let parts := splitNlAux s []
    let parts := if s.getLast? = some '\n' then parts.dropLast else parts
    parts.map (fun l => if l.getLast? = some '\r' then l.dropLast else l)

/-- The minimum of a list of naturals (`Iterator::min`). -/
def minNat? : List Nat → Option Nat
  | [] => none
  | x :: xs =>
    match minNat? xs with
    | none => some x
    | some m => some (min x m)

/-! ### Re-indentation engine (`reindent_body`, editor/mod.rs) -/

/-- One nesting unit: four spaces. -/
def nestUnit : List Char := [' ', ' ', ' ', ' ']

/-- The minimum leading-whitespace width among the non-blank lines of a body
(`.min().unwrap_or(0)` in `reindent_body`). -/
def minIndentOf (body : List Char) : Nat :=
  (minNat? (((rustLines body).filter (fun l => !(isBlank l))).map wsWidth)).getD 0

/-- `reindent_body` from editor/mod.rs: re-indent body content to
`base_indent + one level (4 spaces)`, stripping the minimum indent of the
input's non-blank lines; blank lines become empty. -/
def reindent_body (body : List Char) (baseIndent : List Char) : List Char :=
  let innerIndent := baseIndent ++ nestUnit
  let minIndent := minIndentOf body
  List.intercalate ['\n']
    ((rustLines body).map (fun line =>
      if isBlank line then []
      else
        let stripped := if minIndent ≤ line.length then line.drop minIndent else trimStart line
        innerIndent ++ stripped))

/-! ### Single-body collapse (`collapse_body`, extractor/collapse.rs) -/

/-- The fixed body placeholder text. -/
def placeholderChars : List Char := ("\x7b ... \x7d").data

/-- `str::trim_end_matches(['\n', '\r'])`. -/
def trimEndNlCr (l : List Char) : List Char :=
  (l.reverse.dropWhile (fun c => c = '\n' || c = '\r')).reverse

/-- `build_source_line_mappings` from extractor/collapse.rs. -/
def build_source_line_mappings (content : List Char) (startLine : Nat) :
    List (Nat × List Char) :=
  (rustLines content).enum.map (fun p => (startLine + p.1, p.2))

/-- `collapse_body` from extractor/collapse.rs: replace the body byte range
with the placeholder, keeping the signature (with trailing newlines/CRs
trimmed) and ensuring a space or tab separates it from the placeholder. -/
def collapse_body (source : List Char) (itemStart itemEnd bodyStart bodyEnd : Nat) :
    List Char × List (Nat × List Char) :=
  let before := (source.take bodyStart).drop itemStart
  let after := (source.take itemEnd).drop bodyEnd
  let beforeTrimmed := trimEndNlCr before
  let collapsed :=
    if beforeTrimmed.getLast? = some ' ' || beforeTrimmed.getLast? = some '\t'
    then beforeTrimmed ++ placeholderChars ++ trimBoth after
    else beforeTrimmed ++ [' '] ++ placeholderChars ++ trimBoth after
  let startLine := (source.take itemStart).count '\n' + 1
  (collapsed, build_source_line_mappings collapsed startLine)

/-- The signature text kept by `collapse_body`: the slice from the item start
to the body start, with trailing newline/carriage-return characters
trimmed. -/
def sigOf (source : List Char) (itemStart bodyStart : Nat) : List Char :=
  trimEndNlCr ((source.take bodyStart).drop itemStart)

/-- The `ends_with(' ') || ends_with('\t')` test of `collapse_body`. -/
def sigEndsSpTab (sig : List Char) : Bool :=
  sig.getLast? = some ' ' || sig.getLast? = some '\t'

/-! ### Errors (error.rs) — only the `ParseError` variant is producible by the
editing paths under study. -/

inductive CodeviewError where
  | ParseError (msg : String)
deriving DecidableEq

/-! ### Languages handled by the editor (languages/mod.rs, editor/mod.rs) -/

inductive Language where
  | rust
  | typescript
  | tsx
deriving DecidableEq

/-- The per-language accepted block kinds of `find_body_node`. -/
def bodyKinds : Language → List String
  | .rust => [("block")]
  | .typescript => [("statement_block")]
  | .tsx => [("statement_block")]

/-! ### Syntax tree nodes (the tree-sitter `Node` interface)

A node carries its kind tag, byte range, start row, the tree-sitter
`has_error` flag (true iff the subtree contains an ERROR or missing node —
the parser maintains this invariant, so the flag is stored), and its
children, each optionally tagged with a field name. -/

inductive TSNode where
  | mk (kind : String) (startByte endByte startRow : Nat) (hasErr : Bool)
       (children : List (Option String × TSNode)) : TSNode

def TSNode.kind : TSNode → String
  | .mk k _ _ _ _ _ => k

def TSNode.startByte : TSNode → Nat
  | .mk _ s _ _ _ _ => s

def TSNode.endByte : TSNode → Nat
  | .mk _ _ e _ _ _ => e

def TSNode.startRow : TSNode → Nat
  | .mk _ _ _ r _ _ => r

/-- `Node::has_error`: the subtree contains an error node. -/
def TSNode.has_error : TSNode → Bool
  | .mk _ _ _ _ b _ => b

def TSNode.children : TSNode → List (Option String × TSNode)
  | .mk _ _ _ _ _ cs => cs

/-- `Node::child_by_field_name`: the first child carrying the field name. -/
def TSNode.childByField (n : TSNode) (f : String) : Option TSNode :=
  ((n.children).find? (fun p => p.1 = some f)).map (fun p => p.2)

/-- `Node::children`: all children in order, named and anonymous alike. -/
def TSNode.childNodes (n : TSNode) : List TSNode :=
  (n.children).map (fun p => p.2)

/-! ### The external collaborators: parser and query engine

A `QMatch` is one match of the language's expand query: the `item` capture
node, its preceding siblings (nearest first), and the resolved `name` (or
`impl_type` fallback) capture text, `none` when the match has neither.  A
`Backend` bundles the language with `parser::parse` and the query-cursor
match stream; both are external to the code under verification (tree-sitter
and the per-language query tables). -/

structure QMatch where
  itemNode : TSNode
  prevs : List TSNode
  name : Option String

structure Backend where
  lang : Language
  parse : List Char → Except CodeviewError TSNode
  queryMatches : List Char → TSNode → List QMatch

/-! ### Boundary and attribute resolver (`find_attr_start`, extractor/mod.rs) -/

/-- Walk backwards through preceding `attribute_item` siblings to find the
true start of an attributed item (byte offset, 1-based line number). -/
def find_attr_start : TSNode → List TSNode → Nat × Nat
  | node, [] => (node.startByte, node.startRow + 1)
  | node, p :: rest =>
    if p.kind = ("attribute_item") then find_attr_start p rest
    else (node.startByte, node.startRow + 1)

/-! ### Symbol location (editor/mod.rs) -/

def notFoundErr (symbol : String) : CodeviewError :=
  .ParseError (("Symbol not found: ") ++ symbol)

/-- The first query match whose resolved name equals the symbol
(the `while let Some(m) = matches_iter.next()` loops in editor/mod.rs). -/
def firstNameMatch (ms : List QMatch) (symbol : String) : Option QMatch :=
  ms.find? (fun m => m.name = some symbol)

/-- `find_symbol_range` from editor/mod.rs: byte range of a symbol, start
widened over the preceding attribute chain.  (The function first runs
`expand::extract` as an emptiness pre-check; that pre-check is driven by the
same query and name filter, so it is folded into the `none` branch here.) -/
def find_symbol_range (B : Backend) (source : List Char) (tree : TSNode) (symbol : String) :
    Except CodeviewError (Nat × Nat) :=
  match firstNameMatch (B.queryMatches source tree) symbol with
  | some m => .ok ((find_attr_start m.itemNode m.prevs).1, m.itemNode.endByte)
  | none => .error (notFoundErr symbol)

/-- `find_symbol_node` from editor/mod.rs. -/
def find_symbol_node (B : Backend) (source : List Char) (tree : TSNode) (symbol : String) :
    Except CodeviewError TSNode :=
  match firstNameMatch (B.queryMatches source tree) symbol with
  | some m => .ok m.itemNode
  | none => .error (notFoundErr symbol)

/-! ### Body locator (`find_body_node`, editor/mod.rs) -/

def noBodyErr (k : String) : CodeviewError :=
  .ParseError (("Symbol has no body block (kind: ") ++ k ++ (")"))

/-- `find_body_node`: try the `body` field first (accepted only when its kind
is a recognized block kind), then fall back to scanning direct children. -/
def find_body_node (item : TSNode) (lang : Language) : Except CodeviewError TSNode :=
  let bks := bodyKinds lang
  match item.childByField ("body") with
  | some b =>
    if bks.contains b.kind then .ok b
    else
      match (item.childNodes).find? (fun c => bks.contains c.kind) with
      | some c => .ok c
      | none => .error (noBodyErr item.kind)
  | none =>
    match (item.childNodes).find? (fun c => bks.contains c.kind) with
    | some c => .ok c
    | none => .error (noBodyErr item.kind)

/-! ### Validator (`validate_result`, editor/mod.rs) -/

def invalidResultErr : CodeviewError :=
  .ParseError ("Edit resulted in invalid syntax")

/-- Re-parse the candidate text from scratch and fail when the tree reports
any error node. -/
def validate_result (B : Backend) (source : List Char) : Except CodeviewError Unit :=
  match B.parse source with
  | .error er => .error er
  | .ok tree => if tree.has_error then .error invalidResultErr else .ok ()

/-! ### Text surgery -/

/-- Replace the byte range `[a, b)` of `s` with `repl`
(the `result.push_str` triple in the editor). -/
def splice (s : List Char) (a b : Nat) (repl : List Char) : List Char :=
  s.take a ++ repl ++ s.drop b

/-- `replace` from editor/mod.rs. -/
def replace (B : Backend) (source : List Char) (symbolName : String) (newContent : List Char) :
    Except CodeviewError (List Char) :=
  match B.parse source with
  | .error er => .error er
  | .ok tree =>
    match find_symbol_range B source tree symbolName with
    | .error er => .error er
    | .ok (a, b) =>
      let result := splice source a b newContent
      match validate_result B result with
      | .error er => .error er
      | .ok _ => .ok result

/-- The effective end used by `delete`: one trailing newline directly after
the node's end is consumed when present. -/
def deleteEffEnd (source : List Char) (b : Nat) : Nat :=
  if b < source.length ∧ source.get? b = some '\n' then b + 1 else b

/-- `delete` from editor/mod.rs. -/
def delete (B : Backend) (source : List Char) (symbolName : String) :
    Except CodeviewError (List Char) :=
  match B.parse source with
  | .error er => .error er
  | .ok tree =>
    match find_symbol_range B source tree symbolName with
    | .error er => .error er
    | .ok (a, b) =>
      let result := splice source a (deleteEffEnd source b) []
      match validate_result B result with
      | .error er => .error er
      | .ok _ => .ok result

/-! ### Body replacement -/

def lbrace : Char := Char.ofNat 123

def rbrace : Char := Char.ofNat 125

/-- `source[..body_start].rfind('\n')`. -/
def rfindNl (l : List Char) : Option Nat :=
  (l.reverse.findIdx? (fun c => c = '\n')).map (fun i => l.length - 1 - i)

/-- `.map(|i| i + 1).unwrap_or(0)`: start of the line containing `pos`. -/
def lineStartBefore (source : List Char) (pos : Nat) : Nat :=
  match rfindNl (source.take pos) with
  | some i => i + 1
  | none => 0

/-- The leading-whitespace run of the line containing the body's opening
brace, cut off at the brace position. -/
def originalIndentAt (source : List Char) (bodyStart : Nat) : List Char :=
  ((source.take bodyStart).drop (lineStartBefore source bodyStart)).takeWhile isWs

/-- `format!("{{\n{}\n{}}}", reindented, original_indent)`. -/
def newBlockFor (content indent : List Char) : List Char :=
  lbrace :: '\n' :: (reindent_body content indent ++ '\n' :: (indent ++ [rbrace]))

/-- `replace_body` from editor/mod.rs. -/
def replace_body (B : Backend) (source : List Char) (symbolName : String) (newBody : List Char) :
    Except CodeviewError (List Char) :=
  match B.parse source with
  | .error er => .error er
  | .ok tree =>
    match find_symbol_node B source tree symbolName with
    | .error er => .error er
    | .ok itemNode =>
      match find_body_node itemNode B.lang with
      | .error er => .error er
      | .ok bodyNode =>
        let result := splice source bodyNode.startByte bodyNode.endByte
          (newBlockFor newBody (originalIndentAt source bodyNode.startByte))
        match validate_result B result with
        | .error er => .error er
        | .ok _ => .ok result

/-! ### Batch editing (editor/mod.rs) -/

inductive BatchAction where
  | Replace
  | ReplaceBody
  | Delete
deriving DecidableEq

structure BatchEdit where
  symbol : String
  action : BatchAction
  content : Option (List Char)
deriving DecidableEq

structure ResolvedEdit where
  start : Nat
  stop : Nat
  replacement : List Char
deriving DecidableEq

def missingContentErr (actionName symbol : String) : CodeviewError :=
  .ParseError (("Missing 'content' for ") ++ actionName ++ (" action on '") ++ symbol ++ ("'"))

/-- Resolution of one batch edit descriptor against the pristine source and
tree (the match arms of the `for edit in edits` loop in `batch`). -/
def resolveOne (B : Backend) (source : List Char) (tree : TSNode) (edit : BatchEdit) :
    Except CodeviewError ResolvedEdit :=
  match edit.action with
  | .Replace =>
    match edit.content with
    | none => .error (missingContentErr ("replace") edit.symbol)
    | some c =>
      match find_symbol_range B source tree edit.symbol with
      | .error er => .error er
      | .ok (a, b) => .ok ⟨a, b, c⟩
  | .ReplaceBody =>
    match edit.content with
    | none => .error (missingContentErr ("replace-body") edit.symbol)
    | some c =>
      match find_symbol_node B source tree edit.symbol with
      | .error er => .error er
      | .ok itemNode =>
        match find_body_node itemNode B.lang with
        | .error er => .error er
        | .ok bodyNode =>
          .ok ⟨bodyNode.startByte, bodyNode.endByte,
               newBlockFor c (originalIndentAt source bodyNode.startByte)⟩
  | .Delete =>
    match find_symbol_range B source tree edit.symbol with
    | .error er => .error er
    | .ok (a, b) => .ok ⟨a, deleteEffEnd source b, []⟩

/-- The resolution loop of `batch`: fail-fast left to right. -/
def resolveEdits (B : Backend) (source : List Char) (tree : TSNode) :
    List BatchEdit → Except CodeviewError (List ResolvedEdit)
  | [] => .ok []
  | e :: rest =>
    match resolveOne B source tree e with
    | .error er => .error er
    | .ok r =>
      match resolveEdits B source tree rest with
      | .error er => .error er
      | .ok rs => .ok (r :: rs)

/-- Stable insertion for descending-by-start order: the element goes after
every element with a strictly greater or equal start, matching the stable
`sort_by(|a, b| b.start.cmp(&a.start))`. -/
def insertDesc (x : ResolvedEdit) : List ResolvedEdit → List ResolvedEdit
  | [] => [x]
  | y :: ys => if y.start < x.start then x :: y :: ys else y :: insertDesc x ys

/-- Stable sort by descending start byte. -/
def sortDesc : List ResolvedEdit → List ResolvedEdit
  | [] => []
  | x :: xs => insertDesc x (sortDesc xs)

/-- The `resolved.windows(2)` scan: in descending order, a pair fails when
the lower-start range's end exceeds the higher-start range's start. -/
def overlapCheck : List ResolvedEdit → Bool
  | a :: b :: rest => decide (a.start < b.stop) || overlapCheck (b :: rest)
  | _ => false

def overlapErr : CodeviewError :=
  .ParseError ("Overlapping edit ranges detected")

/-- The splice loop of `batch` over the sorted resolved edits. -/
def applyEdits (source : List Char) (rs : List ResolvedEdit) : List Char :=
  rs.foldl (fun acc r => splice acc r.start r.stop r.replacement) source

/-- `batch` from editor/mod.rs. -/
def batch (B : Backend) (source : List Char) (edits : List BatchEdit) :
    Except CodeviewError (List Char) :=
  match B.parse source with
  | .error er => .error er
  | .ok tree =>
    match resolveEdits B source tree edits with
    | .error er => .error er
    | .ok resolved =>
      let sorted := sortDesc resolved
      if overlapCheck sorted then .error overlapErr
      else
        let result := applyEdits source sorted
        match validate_result B result with
        | .error er => .error er
        | .ok _ => .ok result

/-- `symbol_line_range` from editor/mod.rs: 1-based line range, attributes
included. -/
def symbol_line_range (B : Backend) (source : List Char) (symbolName : String) :
    Except CodeviewError (Nat × Nat) :=
  match B.parse source with
  | .error er => .error er
  | .ok tree =>
    match find_symbol_range B source tree symbolName with
    | .error er => .error er
    | .ok (a, b) => .ok ((source.take a).count '\n' + 1, (source.take b).count '\n' + 1)

/-! ### Derived notions used by the statements -/

/-- Two resolved ranges intersect: some position lies in both half-open
spans. -/
abbrev intersects (r1 r2 : ResolvedEdit) : Prop :=
  max r1.start r2.start < min r1.stop r2.stop

/-- Sibling byte-order sanity (a tree invariant): walking the preceding
siblings nearest-first, each sibling is a well-formed range ending no later
than the start of the node following it. -/
def prevsOrdered : TSNode → List TSNode → Bool
  | _, [] => true
  | n, p :: rest =>
    decide (p.startByte ≤ p.endByte) && decide (p.endByte ≤ n.startByte) && prevsOrdered p rest

/-- The maximal chain of consecutive preceding `attribute_item` siblings. -/
def attrChain (prevs : List TSNode) : List TSNode :=
  prevs.takeWhile (fun p => p.kind = ("attribute_item"))

/-- Re-parsing the text from scratch yields a tree with no error nodes
anywhere. -/
def parsesClean (B : Backend) (s : List Char) : Prop :=
  ∃ t, B.parse s = .ok t ∧ t.has_error = false

/-! ### Concrete instantiations used to exercise the theorems

The parser behind `parser::parse` is an external collaborator; for concrete
evaluations we instantiate the backend with a miniature error-tolerant parser
whose trees report an error exactly when braces are unbalanced, and with
query-match lists shaped like the tree-sitter matches for the sources under
test. -/

def balancedAux : List Char → Nat → Bool
  | [], n => decide (n = 0)
  | c :: rest, n =>
    if c = lbrace then balancedAux rest (n + 1)
    else if c = rbrace then
      match n with
      | 0 => false
      | m + 1 => balancedAux rest m
    else balancedAux rest n

def balanced (s : List Char) : Bool := balancedAux s 0

/-- A miniature stand-in for the external grammar: always yields a tree, and
the tree reports an error exactly when braces are unbalanced. -/
def toyParse (s : List Char) : Except CodeviewError TSNode :=
  .ok (.mk ("source_file") 0 s.length 0 (!(balanced s)) [])

/-- Nodes for the source `"fn foo() {}\n"`. -/
def fooBlockNode : TSNode := .mk ("block") 9 11 0 false []

def fooFnNode : TSNode :=
  .mk ("function_item") 0 11 0 false [(some ("body"), fooBlockNode)]

def fooSource : List Char := ("fn foo() \x7b\x7d\n").data

def toyFoo : Backend where
  lang := Language.rust
  parse := toyParse
  queryMatches := fun _ _ => [{ itemNode := fooFnNode, prevs := [], name := some ("foo") }]

/-- A brace-balanced replacement for `foo`. -/
def goodContent : List Char := ("fn foo() \x7b1\x7d").data

/-- The claim's brace-unbalanced replacement for `foo`. -/
def badContent : List Char := ("fn foo() \x7b \x7b\x7b\x7b\x7b\x7b \x7d").data

/-- A pair of symbols with intersecting ranges (an inner node contained in a
wider one). -/
def nodeWide : TSNode := .mk ("function_item") 0 10 0 false []

def nodeInner : TSNode := .mk ("function_item") 2 5 0 false []

def toyOverlap : Backend where
  lang := Language.rust
  parse := toyParse
  queryMatches := fun _ _ =>
    [{ itemNode := nodeWide, prevs := [], name := some ("outer") },
     { itemNode := nodeInner, prevs := [], name := some ("inner") }]

/-- A pair of symbols with disjoint nonempty ranges. -/
def nodeLeft : TSNode := .mk ("function_item") 0 3 0 false []

def nodeRight : TSNode := .mk ("function_item") 5 9 0 false []

def twoSource : List Char := ("aaa btwob x").data

def toyTwo : Backend where
  lang := Language.rust
  parse := toyParse
  queryMatches := fun _ _ =>
    [{ itemNode := nodeLeft, prevs := [], name := some ("left") },
     { itemNode := nodeRight, prevs := [], name := some ("right") }]

/-- Batch descriptors over `toyTwo`'s two disjoint symbols. -/
def editLeft : BatchEdit :=
  { symbol := ("left"), action := .Replace, content := some (("pq").data) }

def editRight : BatchEdit :=
  { symbol := ("right"), action := .Replace, content := some (("uv").data) }

/-- Nodes for the source `"#[a]\n#[b]\nfn foo() {}\n"`: two attributes then
the function. -/
def attrNode1 : TSNode := .mk ("attribute_item") 0 4 0 false []

def attrNode2 : TSNode := .mk ("attribute_item") 5 9 1 false []

def attrFnNode : TSNode :=
  .mk ("function_item") 10 21 2 false [(some ("body"), TSNode.mk ("block") 19 21 2 false [])]

def attrSource : List Char := ("#[a]\n#[b]\nfn foo() \x7b\x7d\n").data

def toyAttr : Backend where
  lang := Language.rust
  parse := toyParse
  queryMatches := fun _ _ =>
    [{ itemNode := attrFnNode, prevs := [attrNode2, attrNode1], name := some ("foo") }]

/-- Nodes for the source `"// hi\nfn foo() {}\n"`: a line comment directly
above the function. -/
def commentNode : TSNode := .mk ("line_comment") 0 5 0 false []

def cmtFnNode : TSNode := .mk ("function_item") 6 17 1 false []

def cmtSource : List Char := ("// hi\nfn foo() \x7b\x7d\n").data

def toyCmt : Backend where
  lang := Language.rust
  parse := toyParse
  queryMatches := fun _ _ =>
    [{ itemNode := cmtFnNode, prevs := [commentNode], name := some ("foo") }]

/-- Nodes for the source `"struct Foo { x: i32 }\n"`: the struct's braced
field list sits in the `body` field but its kind is
`field_declaration_list`, not `block`. -/
def structKwNode : TSNode := .mk ("struct") 0 6 0 false []

def structNameNode : TSNode := .mk ("type_identifier") 7 10 0 false []

def structFieldsNode : TSNode := .mk ("field_declaration_list") 11 21 0 false []

def structNode : TSNode :=
  .mk ("struct_item") 0 21 0 false
    [(none, structKwNode), (some ("name"), structNameNode), (some ("body"), structFieldsNode)]

def structSource : List Char := ("struct Foo \x7b x: i32 \x7d\n").data

def toyStruct : Backend where
  lang := Language.rust
  parse := toyParse
  queryMatches := fun _ _ =>
    [{ itemNode := structNode, prevs := [], name := some ("Foo") }]

/-! ## Theorems -/

/-! ### Basic facts about the text utilities -/

theorem wsWidth_eq_leadingWs (l : List Char) : wsWidth l = leadingWs l := by
  have h := congrArg List.length (List.takeWhile_append_dropWhile isWs l)
  simp only [List.length_append] at h
  unfold wsWidth leadingWs trimStart
  omega

theorem leadingWs_le_length (l : List Char) : leadingWs l ≤ l.length := by
  have h := congrArg List.length (List.takeWhile_append_dropWhile isWs l)
  simp only [List.length_append] at h
  unfold leadingWs
  omega

theorem minNat?_eq_none {l : List Nat} : minNat? l = none ↔ l = [] := by
  cases l with
  | nil => simp [minNat?]
  | cons a as => cases has : minNat? as <;> simp [minNat?, has]

theorem minNat?_le {l : List Nat} {m : Nat} (hm : minNat? l = some m) :
    ∀ x ∈ l, m ≤ x := by
  induction l generalizing m with
  | nil => simp [minNat?] at hm
  | cons a as ih =>
    intro x hx
    cases has : minNat? as with
    | none =>
      have h0 : as = [] := minNat?_eq_none.mp has
      subst h0
      simp [minNat?] at hm
      simp at hx
      omega
    | some n =>
      simp [minNat?, has] at hm
      rcases List.mem_cons.mp hx with h | h
      · subst h; omega
      · have hn := ih has x h
        omega

theorem minNat?_mem {l : List Nat} {m : Nat} (hm : minNat? l = some m) :
    m ∈ l := by
  induction l generalizing m with
  | nil => simp [minNat?] at hm
  | cons a as ih =>
    cases has : minNat? as with
    | none =>
      simp [minNat?, has] at hm
      simp [hm]
    | some n =>
      simp [minNat?, has] at hm
      rcases Nat.le_total a n with h | h
      · have hma : m = a := by omega
        simp [hma]
      · have hmn : m = n := by omega
        exact List.mem_cons_of_mem _ (hmn ▸ ih has)

theorem minNat?_isSome {l : List Nat} (h : l ≠ []) : (minNat? l).isSome := by
  cases hm : minNat? l with
  | none => exact absurd (minNat?_eq_none.mp hm) h
  | some n => simp

/-- The computed minimum is a lower bound on the leading-whitespace width of
every non-blank line. -/
theorem minIndentOf_le {body : List Char} {l : List Char}
    (hl : l ∈ rustLines body) (hb : isBlank l = false) :
    minIndentOf body ≤ wsWidth l := by
  have hmem : wsWidth l ∈ ((rustLines body).filter (fun l2 => !(isBlank l2))).map wsWidth :=
    List.mem_map_of_mem _ (List.mem_filter.mpr ⟨hl, by simp [hb]⟩)
  cases hmm : minNat? (((rustLines body).filter (fun l2 => !(isBlank l2))).map wsWidth) with
  | none =>
    rw [minNat?_eq_none] at hmm
    rw [hmm] at hmem
    simp at hmem
  | some m =>
    have h := minNat?_le hmm _ hmem
    unfold minIndentOf
    rw [hmm]
    simpa using h

/-- Claim C7: `reindent_body` computes the minimum leading-whitespace width
among the non-blank lines of the body text, strips exactly that many leading
characters (all of them whitespace) from each non-blank line, prefixes every
non-blank line with the base indentation plus one nesting unit (four
spaces), and maps every blank line to a completely empty output line; the
minimum is attained by some non-blank line whenever one exists, so no
non-blank line is shorter than the stripped width (the fully-trimmed degrade
branch never loses non-whitespace). -/
theorem C7_reindent_body_spec (body base : List Char) :
    (reindent_body body base =
      List.intercalate ['\n']
        ((rustLines body).map (fun l =>
          if isBlank l then [] else (base ++ nestUnit) ++ l.drop (minIndentOf body)))) ∧
    (∀ l ∈ rustLines body, isBlank l = false →
      minIndentOf body ≤ leadingWs l ∧ leadingWs l ≤ l.length ∧
      ∀ c ∈ l.take (minIndentOf body), isWs c = true) ∧
    ((∃ l ∈ rustLines body, isBlank l = false) →
      ∃ l ∈ rustLines body, isBlank l = false ∧ leadingWs l = minIndentOf body) := by
  refine ⟨?_, ?_, ?_⟩
  · unfold reindent_body
    dsimp only
    congr 1
    apply List.map_congr_left
    intro l hl
    by_cases hb : isBlank l
    · simp [hb]
    · have hble : isBlank l = false := by simpa using hb
      have h1 : minIndentOf body ≤ wsWidth l := minIndentOf_le hl hble
      have h2 : wsWidth l = leadingWs l := wsWidth_eq_leadingWs l
      have h3 : leadingWs l ≤ l.length := leadingWs_le_length l
      simp only [hble, Bool.false_eq_true, if_false]
      rw [if_pos (by omega)]
  · intro l hl hb
    have h1 : minIndentOf body ≤ leadingWs l := by
      rw [← wsWidth_eq_leadingWs]; exact minIndentOf_le hl hb
    refine ⟨h1, leadingWs_le_length l, ?_⟩
    intro c hc
    have htake : l.take (minIndentOf body) = (l.takeWhile isWs).take (minIndentOf body) := by
      conv_lhs => rw [← List.takeWhile_append_dropWhile isWs l]
      rw [List.take_append_of_le_length h1]
    rw [htake] at hc
    exact List.mem_takeWhile_imp (List.take_subset _ _ hc)
  · rintro ⟨l0, hl0, hb0⟩
    have hf0 : l0 ∈ (rustLines body).filter (fun l2 => !(isBlank l2)) :=
      List.mem_filter.mpr ⟨hl0, by simp [hb0]⟩
    have hne : ((rustLines body).filter (fun l2 => !(isBlank l2))).map wsWidth ≠ [] := by
      intro h
      rw [List.map_eq_nil_iff] at h
      rw [h] at hf0
      simp at hf0
    obtain ⟨m, hm⟩ := Option.isSome_iff_exists.mp (minNat?_isSome hne)
    obtain ⟨l, hlf, hlw⟩ := List.mem_map.mp (minNat?_mem hm)
    refine ⟨l, (List.mem_filter.mp hlf).1, by simpa using (List.mem_filter.mp hlf).2, ?_⟩
    rw [← wsWidth_eq_leadingWs, hlw]
    unfold minIndentOf
    rw [hm]
    rfl

/-- Concrete exercise of C7: a body whose non-blank lines are indented by 2
and 4 — the minimum 2 is stripped, four spaces plus the base indentation is
prefixed, and the blank line stays empty. -/
theorem C7_reindent_body_witness :
    reindent_body (("  a\n\n    b").data) (("  ").data) = (("      a\n\n        b").data) ∧
    minIndentOf (("  a\n\n    b").data) = 2 ∧
    (∃ l ∈ rustLines (("  a\n\n    b").data), isBlank l = false ∧
      leadingWs l = minIndentOf (("  a\n\n    b").data)) := by
  refine ⟨by decide, by decide, ?_⟩
  exact (C7_reindent_body_spec (("  a\n\n    b").data) (("  ").data)).2.2
    (by decide)

/-! ### Claim C8: single-body collapse -/

/-- Claim C8 counterexample: collapsing `"fn f()\t{x}"` (whole string as the
item, body at bytes 7..10) keeps the signature's trailing tab and inserts no
space, so the character immediately before the placeholder's opening brace is
a tab — not exactly one space, refuting the "for every input, exactly one
space immediately before the placeholder's opening delimiter" part of the
claim. -/
theorem C8_collapse_body_counterexample :
    (collapse_body (("fn f()\t\x7bx\x7d").data) 0 10 7 10).1 = (("fn f()\t\x7b ... \x7d").data) ∧
    (("fn f()\t\x7b ... \x7d").data)[7]? = some lbrace ∧
    (("fn f()\t\x7b ... \x7d").data)[6]? = some '\t' ∧
    '\t' ≠ ' ' := by
  exact ⟨by decide, by decide, by decide, by decide⟩

/-- Claim C8 (amended): single-body collapse replaces exactly the body byte
range with the placeholder, preserves the signature verbatim up to trimming
trailing newline/carriage-return characters, and ensures at least one space
or tab immediately precedes the placeholder's opening delimiter: exactly one
space is inserted when the trimmed signature does not already end in a space
or tab, and otherwise the signature's own trailing whitespace is kept with no
extra space added.  (The text after the body, when any, is kept trimmed.) -/
theorem C8_collapse_body_spec (source : List Char) (itemStart itemEnd bodyStart bodyEnd : Nat) :
    ((collapse_body source itemStart itemEnd bodyStart bodyEnd).1 =
      sigOf source itemStart bodyStart ++
      (if sigEndsSpTab (sigOf source itemStart bodyStart) then [] else [' ']) ++
      placeholderChars ++ trimBoth ((source.take itemEnd).drop bodyEnd)) ∧
    (placeholderChars = lbrace :: ((" ... ").data ++ [rbrace])) ∧
    ((sigOf source itemStart bodyStart ++
      (if sigEndsSpTab (sigOf source itemStart bodyStart) then [] else [' '])).getLast? = some ' ' ∨
     (sigOf source itemStart bodyStart ++
      (if sigEndsSpTab (sigOf source itemStart bodyStart) then [] else [' '])).getLast? = some '\t') ∧
    (sigEndsSpTab (sigOf source itemStart bodyStart) = false →
      (if sigEndsSpTab (sigOf source itemStart bodyStart) then ([] : List Char) else [' ']) = [' ']) := by
  refine ⟨?_, by decide, ?_, ?_⟩
  · unfold collapse_body sigOf sigEndsSpTab
    dsimp only
    by_cases h : (trimEndNlCr ((source.take bodyStart).drop itemStart)).getLast? = some ' '
      ∨ (trimEndNlCr ((source.take bodyStart).drop itemStart)).getLast? = some '\t'
    · rw [if_pos (by simpa using h), if_pos (by simpa using h)]
      simp
    · rw [if_neg (by simpa using h), if_neg (by simpa using h)]
  · by_cases h : sigEndsSpTab (sigOf source itemStart bodyStart)
    · rw [if_pos h, List.append_nil]
      unfold sigEndsSpTab at h
      simpa using h
    · rw [if_neg h]
      left
      exact List.getLast?_concat _
  · intro h
    rw [if_neg (by simp [h])]

/-- Concrete exercise of the amended C8: a signature with no trailing
whitespace gets exactly one inserted space before the placeholder. -/
theorem C8_collapse_body_witness :
    (collapse_body (("fn g()\x7by\x7d").data) 0 9 6 9).1 = (("fn g() \x7b ... \x7d").data) ∧
    sigEndsSpTab (sigOf (("fn g()\x7by\x7d").data) 0 6) = false := by
  have h := C8_collapse_body_spec (("fn g()\x7by\x7d").data) 0 9 6 9
  refine ⟨?_, by decide⟩
  rw [h.1]
  decide

/-! ### Characterizations of the editing operations -/

theorem validate_ok_elim {B : Backend} {s : List Char}
    (h : validate_result B s = .ok ()) : parsesClean B s := by
  unfold validate_result at h
  cases hp : B.parse s with
  | error er => rw [hp] at h; simp at h
  | ok t =>
    rw [hp] at h
    dsimp only at h
    by_cases he : t.has_error
    · rw [if_pos he] at h; simp at h
    · exact ⟨t, hp, by simpa using he⟩

theorem validate_invalid {B : Backend} {s : List Char} {t : TSNode}
    (hc : B.parse s = .ok t) (he : t.has_error = true) :
    validate_result B s = .error invalidResultErr := by
  unfold validate_result
  rw [hc]
  dsimp only
  rw [if_pos he]

theorem replace_ok_elim {B : Backend} {src : List Char} {sym : String}
    {c out : List Char} (h : replace B src sym c = .ok out) :
    ∃ tree a b, B.parse src = .ok tree ∧
      find_symbol_range B src tree sym = .ok (a, b) ∧
      validate_result B (splice src a b c) = .ok () ∧
      out = splice src a b c := by
  unfold replace at h
  cases hp : B.parse src with
  | error er => rw [hp] at h; simp at h
  | ok tree =>
    rw [hp] at h
    dsimp only at h
    cases hr : find_symbol_range B src tree sym with
    | error er => rw [hr] at h; simp at h
    | ok ab =>
      obtain ⟨a, b⟩ := ab
      rw [hr] at h
      dsimp only at h
      cases hv : validate_result B (splice src a b c) with
      | error er => rw [hv] at h; simp at h
      | ok u =>
        cases u
        rw [hv] at h
        simp only [Except.ok.injEq] at h
        exact ⟨tree, a, b, rfl, hr, hv, h.symm⟩

theorem replace_invalid {B : Backend} {src : List Char} {sym : String}
    {c : List Char} {tree t : TSNode} {a b : Nat}
    (hp : B.parse src = .ok tree) (hr : find_symbol_range B src tree sym = .ok (a, b))
    (hc : B.parse (splice src a b c) = .ok t) (he : t.has_error = true) :
    replace B src sym c = .error invalidResultErr := by
  unfold replace
  rw [hp]
  dsimp only
  rw [hr]
  dsimp only
  rw [validate_invalid hc he]

theorem delete_ok_elim {B : Backend} {src : List Char} {sym : String}
    {out : List Char} (h : delete B src sym = .ok out) :
    ∃ tree a b, B.parse src = .ok tree ∧
      find_symbol_range B src tree sym = .ok (a, b) ∧
      validate_result B (splice src a (deleteEffEnd src b) []) = .ok () ∧
      out = splice src a (deleteEffEnd src b) [] := by
  unfold delete at h
  cases hp : B.parse src with
  | error er => rw [hp] at h; simp at h
  | ok tree =>
    rw [hp] at h
    dsimp only at h
    cases hr : find_symbol_range B src tree sym with
    | error er => rw [hr] at h; simp at h
    | ok ab =>
      obtain ⟨a, b⟩ := ab
      rw [hr] at h
      dsimp only at h
      cases hv : validate_result B (splice src a (deleteEffEnd src b) []) with
      | error er => rw [hv] at h; simp at h
      | ok u =>
        cases u
        rw [hv] at h
        simp only [Except.ok.injEq] at h
        exact ⟨tree, a, b, rfl, hr, hv, h.symm⟩

theorem delete_invalid {B : Backend} {src : List Char} {sym : String}
    {tree t : TSNode} {a b : Nat}
    (hp : B.parse src = .ok tree) (hr : find_symbol_range B src tree sym = .ok (a, b))
    (hc : B.parse (splice src a (deleteEffEnd src b) []) = .ok t) (he : t.has_error = true) :
    delete B src sym = .error invalidResultErr := by
  unfold delete
  rw [hp]
  dsimp only
  rw [hr]
  dsimp only
  rw [validate_invalid hc he]

theorem replace_body_ok_elim {B : Backend} {src : List Char} {sym : String}
    {c out : List Char} (h : replace_body B src sym c = .ok out) :
    ∃ tree item bodyNode, B.parse src = .ok tree ∧
      find_symbol_node B src tree sym = .ok item ∧
      find_body_node item B.lang = .ok bodyNode ∧
      validate_result B (splice src bodyNode.startByte bodyNode.endByte
        (newBlockFor c (originalIndentAt src bodyNode.startByte))) = .ok () ∧
      out = splice src bodyNode.startByte bodyNode.endByte
        (newBlockFor c (originalIndentAt src bodyNode.startByte)) := by
  unfold replace_body at h
  cases hp : B.parse src with
  | error er => rw [hp] at h; simp at h
  | ok tree =>
    rw [hp] at h
    dsimp only at h
    cases hn : find_symbol_node B src tree sym with
    | error er => rw [hn] at h; simp at h
    | ok item =>
      rw [hn] at h
      dsimp only at h
      cases hb : find_body_node item B.lang with
      | error er => rw [hb] at h; simp at h
      | ok bodyNode =>
        rw [hb] at h
        dsimp only at h
        cases hv : validate_result B (splice src bodyNode.startByte bodyNode.endByte
            (newBlockFor c (originalIndentAt src bodyNode.startByte))) with
        | error er => rw [hv] at h; simp at h
        | ok u =>
          cases u
          rw [hv] at h
          simp only [Except.ok.injEq] at h
          exact ⟨tree, item, bodyNode, rfl, hn, hb, hv, h.symm⟩

theorem replace_body_invalid {B : Backend} {src : List Char} {sym : String}
    {c : List Char} {tree item bodyNode t : TSNode}
    (hp : B.parse src = .ok tree) (hn : find_symbol_node B src tree sym = .ok item)
    (hb : find_body_node item B.lang = .ok bodyNode)
    (hc : B.parse (splice src bodyNode.startByte bodyNode.endByte
      (newBlockFor c (originalIndentAt src bodyNode.startByte))) = .ok t)
    (he : t.has_error = true) :
    replace_body B src sym c = .error invalidResultErr := by
  unfold replace_body
  rw [hp]
  dsimp only
  rw [hn]
  dsimp only
  rw [hb]
  dsimp only
  rw [validate_invalid hc he]

theorem batch_ok_elim {B : Backend} {src : List Char} {edits : List BatchEdit}
    {out : List Char} (h : batch B src edits = .ok out) :
    ∃ tree rs, B.parse src = .ok tree ∧
      resolveEdits B src tree edits = .ok rs ∧
      overlapCheck (sortDesc rs) = false ∧
      validate_result B (applyEdits src (sortDesc rs)) = .ok () ∧
      out = applyEdits src (sortDesc rs) := by
  unfold batch at h
  cases hp : B.parse src with
  | error er => rw [hp] at h; simp at h
  | ok tree =>
    rw [hp] at h
    dsimp only at h
    cases hr : resolveEdits B src tree edits with
    | error er => rw [hr] at h; simp at h
    | ok rs =>
      rw [hr] at h
      dsimp only at h
      by_cases ho : overlapCheck (sortDesc rs)
      · rw [if_pos ho] at h; simp at h
      · rw [if_neg ho] at h
        cases hv : validate_result B (applyEdits src (sortDesc rs)) with
        | error er => rw [hv] at h; simp at h
        | ok u =>
          cases u
          rw [hv] at h
          simp only [Except.ok.injEq] at h
          exact ⟨tree, rs, rfl, hr, by simpa using ho, hv, h.symm⟩

theorem batch_invalid {B : Backend} {src : List Char} {edits : List BatchEdit}
    {tree t : TSNode} {rs : List ResolvedEdit}
    (hp : B.parse src = .ok tree) (hr : resolveEdits B src tree edits = .ok rs)
    (ho : overlapCheck (sortDesc rs) = false)
    (hc : B.parse (applyEdits src (sortDesc rs)) = .ok t) (he : t.has_error = true) :
    batch B src edits = .error invalidResultErr := by
  unfold batch
  rw [hp]
  dsimp only
  rw [hr]
  dsimp only
  rw [if_neg (by simp [ho])]
  rw [validate_invalid hc he]

/-! ### Frame facts about `splice` -/

theorem splice_getElem_lt {s repl : List Char} {a b : Nat} (ha : a ≤ s.length)
    {i : Nat} (hi : i < a) : (splice s a b repl)[i]? = s[i]? := by
  unfold splice
  have hlt : i < (s.take a).length := by rw [List.length_take]; omega
  rw [List.append_assoc, List.getElem?_append, if_pos hlt, List.getElem?_take, if_pos hi]

theorem splice_getElem_shift {s repl : List Char} {a b : Nat} (hab : a ≤ b)
    (hb : b ≤ s.length) {j : Nat} (hj : b ≤ j) :
    (splice s a b repl)[a + repl.length + (j - b)]? = s[j]? := by
  unfold splice
  have hlen : ((s.take a) ++ repl).length = a + repl.length := by
    rw [List.length_append, List.length_take]
    omega
  rw [List.getElem?_append_right (by rw [hlen]; omega)]
  have hidx : a + repl.length + (j - b) - ((s.take a) ++ repl).length = j - b := by
    rw [hlen]
    omega
  rw [hidx, List.getElem?_drop]
  congr 1
  omega

theorem deleteEffEnd_of_nl {src : List Char} {b : Nat}
    (h : b < src.length ∧ src.get? b = some '\n') : deleteEffEnd src b = b + 1 := by
  unfold deleteEffEnd
  rw [if_pos h]

theorem deleteEffEnd_of_not {src : List Char} {b : Nat}
    (h : ¬(b < src.length ∧ src.get? b = some '\n')) : deleteEffEnd src b = b := by
  unfold deleteEffEnd
  rw [if_neg h]

theorem deleteEffEnd_bounds {src : List Char} {a b : Nat} (hab : a ≤ b)
    (hb : b ≤ src.length) : a ≤ deleteEffEnd src b ∧ deleteEffEnd src b ≤ src.length := by
  unfold deleteEffEnd
  by_cases h : b < src.length ∧ src.get? b = some '\n'
  · rw [if_pos h]
    omega
  · rw [if_neg h]
    omega

/-! ### Claim C1: validation is the sole gate for every mutation -/

/-- Claim C1: `replace`, `delete`, `replace_body` and `batch` return a
modified source string only if re-parsing that string from scratch yields a
tree with no error nodes anywhere (`parsesClean`); and whenever the re-parse
of the spliced candidate reports errors, the operation fails with the
invalid-syntax error.  The operations are pure functions of their immutable
input, so the original source is untouched in every failure case. -/
theorem C1_validation_gate (B : Backend) (src : List Char) (sym : String)
    (c : List Char) (edits : List BatchEdit) (out : List Char) :
    (replace B src sym c = .ok out → parsesClean B out) ∧
    (delete B src sym = .ok out → parsesClean B out) ∧
    (replace_body B src sym c = .ok out → parsesClean B out) ∧
    (batch B src edits = .ok out → parsesClean B out) ∧
    (∀ tree t a b, B.parse src = .ok tree →
      find_symbol_range B src tree sym = .ok (a, b) →
      B.parse (splice src a b c) = .ok t → t.has_error = true →
      replace B src sym c = .error invalidResultErr) ∧
    (∀ tree t a b, B.parse src = .ok tree →
      find_symbol_range B src tree sym = .ok (a, b) →
      B.parse (splice src a (deleteEffEnd src b) []) = .ok t → t.has_error = true →
      delete B src sym = .error invalidResultErr) ∧
    (∀ tree item bodyNode t, B.parse src = .ok tree →
      find_symbol_node B src tree sym = .ok item →
      find_body_node item B.lang = .ok bodyNode →
      B.parse (splice src bodyNode.startByte bodyNode.endByte
        (newBlockFor c (originalIndentAt src bodyNode.startByte))) = .ok t →
      t.has_error = true →
      replace_body B src sym c = .error invalidResultErr) ∧
    (∀ tree t rs, B.parse src = .ok tree →
      resolveEdits B src tree edits = .ok rs →
      overlapCheck (sortDesc rs) = false →
      B.parse (applyEdits src (sortDesc rs)) = .ok t → t.has_error = true →
      batch B src edits = .error invalidResultErr) := by
  refine ⟨?_, ?_, ?_, ?_, ?_, ?_, ?_, ?_⟩
  · intro h
    obtain ⟨tree, a, b, _, _, hv, hout⟩ := replace_ok_elim h
    rw [hout]
    exact validate_ok_elim hv
  · intro h
    obtain ⟨tree, a, b, _, _, hv, hout⟩ := delete_ok_elim h
    rw [hout]
    exact validate_ok_elim hv
  · intro h
    obtain ⟨tree, item, bodyNode, _, _, _, hv, hout⟩ := replace_body_ok_elim h
    rw [hout]
    exact validate_ok_elim hv
  · intro h
    obtain ⟨tree, rs, _, _, _, hv, hout⟩ := batch_ok_elim h
    rw [hout]
    exact validate_ok_elim hv
  · intro tree t a b hp hr hc he
    exact replace_invalid hp hr hc he
  · intro tree t a b hp hr hc he
    exact delete_invalid hp hr hc he
  · intro tree item bodyNode t hp hn hb hc he
    exact replace_body_invalid hp hn hb hc he
  · intro tree t rs hp hr ho hc he
    exact batch_invalid hp hr ho hc he

/-- Concrete exercise of C1 on the miniature backend: a balanced replacement
for `foo` in `"fn foo() {}\n"` passes the gate, the claim's unbalanced
replacement `"fn foo() { {{{{{ }"` makes the re-parse report errors, so
`replace` (and a `batch` carrying the same edit) fail with the
invalid-syntax error. -/
theorem C1_validation_gate_witness :
    replace toyFoo fooSource ("foo") goodContent = .ok (goodContent ++ ['\n']) ∧
    parsesClean toyFoo (goodContent ++ ['\n']) ∧
    replace toyFoo fooSource ("foo") badContent = .error invalidResultErr ∧
    batch toyFoo fooSource
      [{ symbol := ("foo"), action := .Replace, content := some badContent }] =
      .error invalidResultErr := by
  refine ⟨rfl, ?_, ?_, ?_⟩
  · exact (C1_validation_gate toyFoo fooSource ("foo") goodContent [] (goodContent ++ ['\n'])).1 rfl
  · exact (C1_validation_gate toyFoo fooSource ("foo") badContent [] []).2.2.2.2.1
      (TSNode.mk ("source_file") 0 12 0 false [])
      (TSNode.mk ("source_file") 0 19 0 true []) 0 11 rfl rfl rfl rfl
  · exact (C1_validation_gate toyFoo fooSource ("foo") badContent
      [{ symbol := ("foo"), action := .Replace, content := some badContent }] []).2.2.2.2.2.2.2
      (TSNode.mk ("source_file") 0 12 0 false [])
      (TSNode.mk ("source_file") 0 19 0 true [])
      [{ start := 0, stop := 11, replacement := badContent }] rfl rfl rfl rfl rfl

/-! ### Claim C2: byte identity outside the edited range -/

/-- Claim C2: for every successful `replace`, `delete` or `replace_body`,
every byte strictly before the resolved start appears unchanged at the same
position and every byte strictly after the resolved end appears at the
corresponding shifted position; `delete` consumes exactly one extra trailing
newline directly after the node's end when one is present, and nothing extra
at end-of-file or before a non-newline byte.  (The bounds `a ≤ b ≤ length`
restate the tree invariant that node ranges index the parsed buffer.) -/
theorem C2_frame_preservation (B : Backend) (src : List Char) (sym : String)
    (c out : List Char) :
    (∀ tree a b, B.parse src = .ok tree →
      find_symbol_range B src tree sym = .ok (a, b) →
      a ≤ b → b ≤ src.length →
      replace B src sym c = .ok out →
      out = splice src a b c ∧
      (∀ i, i < a → out[i]? = src[i]?) ∧
      (∀ j, b ≤ j → out[a + c.length + (j - b)]? = src[j]?)) ∧
    (∀ tree a b, B.parse src = .ok tree →
      find_symbol_range B src tree sym = .ok (a, b) →
      a ≤ b → b ≤ src.length →
      ((b < src.length ∧ src.get? b = some '\n') → deleteEffEnd src b = b + 1) ∧
      (b = src.length → deleteEffEnd src b = b) ∧
      (∀ ch, src.get? b = some ch → ch ≠ '\n' → deleteEffEnd src b = b) ∧
      (delete B src sym = .ok out →
        out = splice src a (deleteEffEnd src b) [] ∧
        (∀ i, i < a → out[i]? = src[i]?) ∧
        (∀ j, deleteEffEnd src b ≤ j → out[a + (j - deleteEffEnd src b)]? = src[j]?))) ∧
    (∀ tree item bodyNode, B.parse src = .ok tree →
      find_symbol_node B src tree sym = .ok item →
      find_body_node item B.lang = .ok bodyNode →
      bodyNode.startByte ≤ bodyNode.endByte → bodyNode.endByte ≤ src.length →
      replace_body B src sym c = .ok out →
      (∀ i, i < bodyNode.startByte → out[i]? = src[i]?) ∧
      (∀ j, bodyNode.endByte ≤ j →
        out[bodyNode.startByte +
          (newBlockFor c (originalIndentAt src bodyNode.startByte)).length +
          (j - bodyNode.endByte)]? = src[j]?)) := by
  refine ⟨?_, ?_, ?_⟩
  · intro tree a b hp hr hab hb h
    obtain ⟨tree2, a2, b2, hp2, hr2, hv2, hout⟩ := replace_ok_elim h
    rw [hp] at hp2
    injection hp2 with htree
    subst htree
    rw [hr] at hr2
    injection hr2 with hpair
    injection hpair with ha2 hb2
    subst ha2
    subst hb2
    subst hout
    refine ⟨rfl, ?_, ?_⟩
    · intro i hi
      exact splice_getElem_lt (by omega) hi
    · intro j hj
      exact splice_getElem_shift hab hb hj
  · intro tree a b hp hr hab hb
    obtain ⟨hea, heb⟩ := deleteEffEnd_bounds hab hb
    refine ⟨fun h => deleteEffEnd_of_nl h, ?_, ?_, ?_⟩
    · intro h
      exact deleteEffEnd_of_not (by omega)
    · intro ch hch hne
      refine deleteEffEnd_of_not ?_
      rintro ⟨_, hnl⟩
      rw [hch] at hnl
      exact hne (by injection hnl)
    · intro h
      obtain ⟨tree2, a2, b2, hp2, hr2, hv2, hout⟩ := delete_ok_elim h
      rw [hp] at hp2
      injection hp2 with htree
      subst htree
      rw [hr] at hr2
      injection hr2 with hpair
      injection hpair with ha2 hb2
      subst ha2
      subst hb2
      subst hout
      refine ⟨rfl, ?_, ?_⟩
      · intro i hi
        exact splice_getElem_lt (by omega) hi
      · intro j hj
        exact splice_getElem_shift hea heb hj
  · intro tree item bodyNode hp hn hbn hab hb h
    obtain ⟨tree2, item2, body2, hp2, hn2, hb2, hv2, hout⟩ := replace_body_ok_elim h
    rw [hp] at hp2
    injection hp2 with htree
    subst htree
    rw [hn] at hn2
    injection hn2 with hitem
    subst hitem
    rw [hbn] at hb2
    injection hb2 with hbody
    subst hbody
    subst hout
    refine ⟨?_, ?_⟩
    · intro i hi
      exact splice_getElem_lt (by omega) hi
    · intro j hj
      exact splice_getElem_shift hab hb hj

/-- Concrete exercise of C2: replacing the range 0..3 of `"aaa btwob x"`
with `"ZZ"` keeps byte 1 in place and shifts byte 4 to position 3; deleting
`foo` from `"fn foo() {}\n"` consumes the trailing newline at byte 11. -/
theorem C2_frame_preservation_witness :
    replace toyTwo twoSource ("right") (("ZZ").data) = .ok (("aaa bZZ x").data) ∧
    (("aaa bZZ x").data)[1]? = twoSource[1]? ∧
    (("aaa bZZ x").data)[5 + ("ZZ").data.length + (9 - 9)]? = twoSource[9]? ∧
    deleteEffEnd fooSource 11 = 12 ∧
    delete toyFoo fooSource ("foo") = .ok [] := by
  have h1 := (C2_frame_preservation toyTwo twoSource ("right") (("ZZ").data)
    (("aaa bZZ x").data)).1
    (TSNode.mk ("source_file") 0 11 0 false []) 5 9 rfl rfl (by omega) (by decide) rfl
  have h2 := ((C2_frame_preservation toyFoo fooSource ("foo") [] []).2.1
    (TSNode.mk ("source_file") 0 12 0 false []) 0 11 rfl rfl (by decide) (by decide)).1
  refine ⟨rfl, h1.2.1 1 (by omega), h1.2.2 9 (by omega), ?_, rfl⟩
  exact h2 ⟨by decide, by decide⟩

/-! ### Facts about the attribute walk-back -/

theorem find_attr_start_of_chain_nil {node : TSNode} {prevs : List TSNode}
    (h : attrChain prevs = []) :
    find_attr_start node prevs = (node.startByte, node.startRow + 1) := by
  cases prevs with
  | nil => rfl
  | cons p rest =>
    unfold attrChain at h
    rw [List.takeWhile_cons] at h
    by_cases hk : p.kind = ("attribute_item")
    · rw [if_pos (by simp [hk])] at h
      simp at h
    · unfold find_attr_start
      rw [if_neg hk]

theorem find_attr_start_of_chain_last {node : TSNode} {prevs : List TSNode} {a : TSNode}
    (h : (attrChain prevs).getLast? = some a) :
    find_attr_start node prevs = (a.startByte, a.startRow + 1) := by
  induction prevs generalizing node with
  | nil => simp [attrChain] at h
  | cons p rest ih =>
    unfold attrChain at h
    rw [List.takeWhile_cons] at h
    by_cases hk : p.kind = ("attribute_item")
    · rw [if_pos (by simp [hk])] at h
      unfold find_attr_start
      rw [if_pos hk]
      have h2 : (p :: attrChain rest).getLast? = some a := h
      cases hc : (attrChain rest).getLast? with
      | none =>
        have hnil : attrChain rest = [] := by
          cases hcc : attrChain rest with
          | nil => rfl
          | cons x xs => rw [hcc] at hc; simp [List.getLast?_cons] at hc
        rw [hnil] at h2
        simp at h2
        rw [find_attr_start_of_chain_nil hnil, h2]
      | some a2 =>
        have hne : attrChain rest ≠ [] := by
          intro hx
          rw [hx] at hc
          simp at hc
        have hsh : (p :: attrChain rest).getLast? = (attrChain rest).getLast? := by
          cases hcc : attrChain rest with
          | nil => exact absurd hcc hne
          | cons x xs => simp [List.getLast?_cons]
        rw [hsh, hc] at h2
        have ha2 : a2 = a := by injection h2
        subst ha2
        exact ih hc
    · rw [if_neg (by simp [hk])] at h
      simp at h

theorem find_attr_start_le {node : TSNode} {prevs : List TSNode}
    (h : prevsOrdered node prevs = true) :
    (find_attr_start node prevs).1 ≤ node.startByte := by
  induction prevs generalizing node with
  | nil => simp [find_attr_start]
  | cons p rest ih =>
    unfold prevsOrdered at h
    simp only [Bool.and_eq_true, decide_eq_true_eq] at h
    obtain ⟨⟨hse, hen⟩, hord⟩ := h
    unfold find_attr_start
    by_cases hk : p.kind = ("attribute_item")
    · rw [if_pos hk]
      have := @ih p hord
      omega
    · rw [if_neg hk]

theorem find_attr_start_le_chain {node : TSNode} {prevs : List TSNode}
    (h : prevsOrdered node prevs = true) :
    ∀ a ∈ attrChain prevs,
      (find_attr_start node prevs).1 ≤ a.startByte ∧
      a.startByte ≤ node.startByte ∧ a.endByte ≤ node.startByte := by
  induction prevs generalizing node with
  | nil => simp [attrChain]
  | cons p rest ih =>
    unfold prevsOrdered at h
    simp only [Bool.and_eq_true, decide_eq_true_eq] at h
    obtain ⟨⟨hse, hen⟩, hord⟩ := h
    intro a ha
    unfold attrChain at ha
    rw [List.takeWhile_cons] at ha
    by_cases hk : p.kind = ("attribute_item")
    · rw [if_pos (by simp [hk])] at ha
      unfold find_attr_start
      rw [if_pos hk]
      rcases List.mem_cons.mp ha with hae | hae
      · subst hae
        have := @find_attr_start_le a rest hord
        omega
      · have := @ih p hord a hae
        omega
    · rw [if_neg (by simp [hk])] at ha
      simp at ha

/-! ### Claim C5: the effective start covers the whole attribute chain -/

/-- Claim C5: for a located symbol node preceded by a maximal chain of
consecutive `attribute_item` siblings, `find_attr_start` returns the start
byte and 1-indexed start line of the earliest attribute in the chain — the
node's own position when the chain is empty — the resolved start never
exceeds the node's own start, every attribute's byte span lies inside the
resolved range `[start, node end)` that `replace`/`delete` splice out, and
`find_symbol_range` and `symbol_line_range` are driven by exactly this
position. -/
theorem C5_attr_chain_effective_start (B : Backend) (src : List Char) (sym : String)
    (node : TSNode) (prevs : List TSNode) (tree : TSNode) (m : QMatch) :
    (attrChain prevs = [] →
      find_attr_start node prevs = (node.startByte, node.startRow + 1)) ∧
    (∀ a, (attrChain prevs).getLast? = some a →
      find_attr_start node prevs = (a.startByte, a.startRow + 1)) ∧
    (prevsOrdered node prevs = true →
      (find_attr_start node prevs).1 ≤ node.startByte) ∧
    (prevsOrdered node prevs = true → node.startByte ≤ node.endByte →
      ∀ a ∈ attrChain prevs,
        (find_attr_start node prevs).1 ≤ a.startByte ∧ a.endByte ≤ node.endByte) ∧
    (firstNameMatch (B.queryMatches src tree) sym = some m →
      find_symbol_range B src tree sym =
        .ok ((find_attr_start m.itemNode m.prevs).1, m.itemNode.endByte)) ∧
    (∀ tree2 a b, B.parse src = .ok tree2 →
      find_symbol_range B src tree2 sym = .ok (a, b) →
      symbol_line_range B src sym =
        .ok ((src.take a).count '\n' + 1, (src.take b).count '\n' + 1)) := by
  refine ⟨?_, ?_, ?_, ?_, ?_, ?_⟩
  · exact fun h => find_attr_start_of_chain_nil h
  · exact fun a h => find_attr_start_of_chain_last h
  · exact fun h => find_attr_start_le h
  · intro ho hse a ha
    have := find_attr_start_le_chain ho a ha
    omega
  · intro h
    unfold find_symbol_range
    rw [h]
  · intro tree2 a b hp hr
    unfold symbol_line_range
    rw [hp]
    dsimp only
    rw [hr]

/-- Concrete exercise of C5: for `"#[a]\n#[b]\nfn foo() {}\n"` the resolved
start is byte 0 and line 1 — the earliest of the two attributes — and the
line range of `foo` is lines 1 to 3. -/
theorem C5_attr_chain_effective_start_witness :
    find_attr_start attrFnNode [attrNode2, attrNode1] = (0, 1) ∧
    find_symbol_range toyAttr attrSource (TSNode.mk ("source_file") 0 22 0 false [])
      ("foo") = .ok (0, 21) ∧
    symbol_line_range toyAttr attrSource ("foo") = .ok (1, 3) ∧
    prevsOrdered attrFnNode [attrNode2, attrNode1] = true ∧
    (find_attr_start attrFnNode [attrNode2, attrNode1]).1 ≤ attrNode1.startByte := by
  have h := C5_attr_chain_effective_start toyAttr attrSource ("foo") attrFnNode
    [attrNode2, attrNode1] (TSNode.mk ("source_file") 0 22 0 false [])
    { itemNode := attrFnNode, prevs := [attrNode2, attrNode1], name := some ("foo") }
  refine ⟨h.2.1 attrNode1 rfl, ?_, ?_, rfl, ?_⟩
  · exact h.2.2.2.2.1 rfl
  · exact h.2.2.2.2.2 (TSNode.mk ("source_file") 0 22 0 false []) 0 21 rfl
      (h.2.2.2.2.1 rfl)
  · exact (h.2.2.2.1 rfl (by decide) attrNode1
      (List.mem_cons_of_mem _ (List.mem_cons_self _ _))).1

/-! ### Claim C10: only `attribute_item` siblings are walked back -/

/-- Claim C10: the walk-back stops at the first preceding sibling whose kind
is not exactly `attribute_item` — in particular at a line comment directly
above the declaration — so the effective start is the node's own start byte
and line, and `replace`/`delete` leave every byte before the node's start
(the comment included) unchanged. -/
theorem C10_non_attribute_prev (B : Backend) (src : List Char) (sym : String)
    (c out : List Char) (node p : TSNode) (rest : List TSNode) :
    (p.kind ≠ ("attribute_item") →
      find_attr_start node (p :: rest) = (node.startByte, node.startRow + 1)) ∧
    (∀ tree m, B.parse src = .ok tree →
      firstNameMatch (B.queryMatches src tree) sym = some m →
      m.itemNode = node → m.prevs = p :: rest →
      p.kind ≠ ("attribute_item") →
      node.startByte ≤ node.endByte → node.endByte ≤ src.length →
      (replace B src sym c = .ok out →
        ∀ i, i < node.startByte → out[i]? = src[i]?) ∧
      (delete B src sym = .ok out →
        ∀ i, i < node.startByte → out[i]? = src[i]?)) := by
  have hstart : p.kind ≠ ("attribute_item") →
      find_attr_start node (p :: rest) = (node.startByte, node.startRow + 1) := by
    intro hk
    unfold find_attr_start
    rw [if_neg hk]
  refine ⟨hstart, ?_⟩
  intro tree m hp hm hnode hprevs hk hse hel
  have hr : find_symbol_range B src tree sym = .ok (node.startByte, node.endByte) := by
    unfold find_symbol_range
    rw [hm]
    dsimp only
    rw [hnode, hprevs, hstart hk]
  constructor
  · intro h
    obtain ⟨tree2, a2, b2, hp2, hr2, hv2, hout⟩ := replace_ok_elim h
    rw [hp] at hp2
    injection hp2 with htree
    subst htree
    rw [hr] at hr2
    injection hr2 with hpair
    injection hpair with ha2 hb2
    subst ha2
    subst hb2
    subst hout
    intro i hi
    exact splice_getElem_lt (by omega) hi
  · intro h
    obtain ⟨tree2, a2, b2, hp2, hr2, hv2, hout⟩ := delete_ok_elim h
    rw [hp] at hp2
    injection hp2 with htree
    subst htree
    rw [hr] at hr2
    injection hr2 with hpair
    injection hpair with ha2 hb2
    subst ha2
    subst hb2
    subst hout
    intro i hi
    exact splice_getElem_lt (by omega) hi

/-- Concrete exercise of C10: deleting `foo` from `"// hi\nfn foo() {}\n"`
keeps the comment — the effective start is the function's own byte 6 (line
2), and byte 2 of the output still holds the comment character. -/
theorem C10_non_attribute_prev_witness :
    find_attr_start cmtFnNode [commentNode] = (6, 2) ∧
    delete toyCmt cmtSource ("foo") = .ok (("// hi\n").data) ∧
    (("// hi\n").data)[2]? = cmtSource[2]? := by
  have h := C10_non_attribute_prev toyCmt cmtSource ("foo") [] (("// hi\n").data)
    cmtFnNode commentNode []
  refine ⟨h.1 (by decide), rfl, ?_⟩
  exact (h.2 (TSNode.mk ("source_file") 0 18 0 false [])
    { itemNode := cmtFnNode, prevs := [commentNode], name := some ("foo") }
    rfl rfl rfl rfl (by decide) (by decide) (by decide)).2 rfl 2 (by decide)

/-! ### Claim C6: `replace_body` fails with the no-body error -/

theorem childByField_mem {n : TSNode} {f : String} {b : TSNode}
    (h : n.childByField f = some b) : b ∈ n.childNodes := by
  unfold TSNode.childByField at h
  cases hf : (n.children).find? (fun p => p.1 = some f) with
  | none => rw [hf] at h; exact Option.noConfusion h
  | some pair =>
    rw [hf] at h
    injection h with h2
    subst h2
    exact List.mem_map_of_mem _ (List.mem_of_find?_eq_some hf)

theorem find_body_node_err {item : TSNode} {lang : Language}
    (h : ∀ ch ∈ item.childNodes, (bodyKinds lang).contains ch.kind = false) :
    find_body_node item lang = .error (noBodyErr item.kind) := by
  unfold find_body_node
  have hscan : (item.childNodes).find? (fun ch => (bodyKinds lang).contains ch.kind) = none :=
    List.find?_eq_none.mpr (fun ch hch => by rw [h ch hch]; simp)
  cases hf : item.childByField ("body") with
  | none =>
    dsimp only
    rw [hscan]
  | some b =>
    dsimp only
    rw [if_neg (by rw [h b (childByField_mem hf)]; simp)]
    rw [hscan]

theorem replace_body_err {B : Backend} {src : List Char} {sym : String}
    {c : List Char} {tree item : TSNode} {e : CodeviewError}
    (hp : B.parse src = .ok tree) (hn : find_symbol_node B src tree sym = .ok item)
    (hb : find_body_node item B.lang = .error e) :
    replace_body B src sym c = .error e := by
  unfold replace_body
  rw [hp]
  dsimp only
  rw [hn]
  dsimp only
  rw [hb]

/-- Claim C6: when a located symbol node has neither a `body`-field child of
an accepted block kind nor any direct child of an accepted block kind —
`"block"` for Rust, `"statement_block"` for TypeScript/TSX — `find_body_node`
fails with the no-body error naming the node kind, and `replace_body`
propagates that error, returning no modified source.  A Rust struct's braced
field list has kind `field_declaration_list`, so it is not a body. -/
theorem C6_no_body (B : Backend) (src : List Char) (sym : String) (c : List Char)
    (item : TSNode) :
    ((∀ ch ∈ item.childNodes, (bodyKinds B.lang).contains ch.kind = false) →
      find_body_node item B.lang = .error (noBodyErr item.kind)) ∧
    (∀ tree, B.parse src = .ok tree →
      find_symbol_node B src tree sym = .ok item →
      (∀ ch ∈ item.childNodes, (bodyKinds B.lang).contains ch.kind = false) →
      replace_body B src sym c = .error (noBodyErr item.kind) ∧
      ∀ out, replace_body B src sym c ≠ .ok out) := by
  refine ⟨fun h => find_body_node_err h, ?_⟩
  intro tree hp hn h
  have herr := @replace_body_err B src sym c tree item _ hp hn (find_body_node_err h)
  refine ⟨herr, ?_⟩
  intro out hok
  rw [herr] at hok
  exact absurd hok (by simp)

/-- Concrete exercise of C6, the claim's example: `replace_body` on
`"struct Foo { x: i32 }\n"` with symbol `Foo` fails — the struct's `body`
field holds a `field_declaration_list`, which is not a Rust `block`. -/
theorem C6_no_body_witness :
    replace_body toyStruct structSource ("Foo") (("y: i32").data) =
      .error (.ParseError ("Symbol has no body block (kind: struct_item)")) ∧
    structNode.childByField ("body") = some structFieldsNode ∧
    structFieldsNode.kind = ("field_declaration_list") := by
  have h := (C6_no_body toyStruct structSource ("Foo") (("y: i32").data) structNode).2
    (TSNode.mk ("source_file") 0 22 0 false []) rfl rfl (by decide)
  exact ⟨h.1, rfl, rfl⟩

/-! ### Claim C9: missing content is a distinct, fail-fast error -/

theorem resolveEdits_append_err {B : Backend} {src : List Char} {tree : TSNode}
    {pre post : List BatchEdit} {bad : BatchEdit} {er : CodeviewError}
    (hpre : ∀ e ∈ pre, ∃ r, resolveOne B src tree e = .ok r)
    (hbad : resolveOne B src tree bad = .error er) :
    resolveEdits B src tree (pre ++ bad :: post) = .error er := by
  induction pre with
  | nil =>
    rw [List.nil_append]
    unfold resolveEdits
    rw [hbad]
  | cons e pre' ih =>
    obtain ⟨r, hr⟩ := hpre e (List.mem_cons_self _ _)
    have ih2 := ih (fun e2 he2 => hpre e2 (List.mem_cons_of_mem _ he2))
    show resolveEdits B src tree (e :: (pre' ++ bad :: post)) = .error er
    unfold resolveEdits
    rw [hr]
    dsimp only
    rw [ih2]

/-- Claim C9: a `Replace` or `ReplaceBody` batch descriptor whose content is
absent makes `batch` fail with the distinct missing-content `ParseError`
naming the offending symbol and the action, whatever descriptors follow (the
resolution loop is fail-fast), so it is never treated as a `Delete`; and a
`Delete` descriptor resolves identically whatever its content field holds. -/
theorem C9_missing_content (B : Backend) (src : List Char) (tree : TSNode)
    (pre post : List BatchEdit) (bad : BatchEdit) (sym : String)
    (c c2 : Option (List Char)) :
    (B.parse src = .ok tree →
      (∀ e ∈ pre, ∃ r, resolveOne B src tree e = .ok r) →
      bad.content = none →
      (bad.action = .Replace →
        batch B src (pre ++ bad :: post) =
          .error (missingContentErr ("replace") bad.symbol)) ∧
      (bad.action = .ReplaceBody →
        batch B src (pre ++ bad :: post) =
          .error (missingContentErr ("replace-body") bad.symbol))) ∧
    (resolveOne B src tree { symbol := sym, action := .Delete, content := c } =
      resolveOne B src tree { symbol := sym, action := .Delete, content := c2 }) := by
  constructor
  · intro hp hpre hnone
    have hbatch : ∀ er, resolveOne B src tree bad = .error er →
        batch B src (pre ++ bad :: post) = .error er := by
      intro er hbad
      unfold batch
      rw [hp]
      dsimp only
      rw [resolveEdits_append_err hpre hbad]
    constructor
    · intro hact
      refine hbatch _ ?_
      unfold resolveOne
      rw [hact, hnone]
    · intro hact
      refine hbatch _ ?_
      unfold resolveOne
      rw [hact, hnone]
  · rfl

/-- Concrete exercise of C9: the second descriptor lacks content, so the
batch fails with the error naming `bar` even though a later descriptor names
an unknown symbol; a `Delete` descriptor's content is ignored. -/
theorem C9_missing_content_witness :
    batch toyFoo fooSource
      [{ symbol := ("foo"), action := .Replace, content := some goodContent },
       { symbol := ("bar"), action := .Replace, content := none },
       { symbol := ("nope"), action := .Delete, content := none }] =
      .error (.ParseError ("Missing 'content' for replace action on 'bar'")) ∧
    resolveOne toyFoo fooSource (TSNode.mk ("source_file") 0 12 0 false [])
      { symbol := ("foo"), action := .Delete, content := some badContent } =
      resolveOne toyFoo fooSource (TSNode.mk ("source_file") 0 12 0 false [])
      { symbol := ("foo"), action := .Delete, content := none } := by
  have h := C9_missing_content toyFoo fooSource (TSNode.mk ("source_file") 0 12 0 false [])
    [{ symbol := ("foo"), action := .Replace, content := some goodContent }]
    [{ symbol := ("nope"), action := .Delete, content := none }]
    { symbol := ("bar"), action := .Replace, content := none } ("foo")
    (some badContent) none
  refine ⟨?_, h.2⟩
  exact (h.1 rfl
    (by
      intro e he
      rw [List.mem_singleton] at he
      subst he
      exact ⟨⟨0, 11, goodContent⟩, rfl⟩)
    rfl).1 rfl

/-! ### Sorting facts for `batch` -/

theorem insertDesc_perm (x : ResolvedEdit) (l : List ResolvedEdit) :
    (insertDesc x l).Perm (x :: l) := by
  induction l with
  | nil => exact List.Perm.refl _
  | cons y ys ih =>
    unfold insertDesc
    by_cases h : y.start < x.start
    · rw [if_pos h]
    · rw [if_neg h]
      exact (ih.cons y).trans (List.Perm.swap x y ys)

theorem sortDesc_perm (l : List ResolvedEdit) : (sortDesc l).Perm l := by
  induction l with
  | nil => exact List.Perm.refl _
  | cons x xs ih =>
    unfold sortDesc
    exact (insertDesc_perm x (sortDesc xs)).trans (ih.cons x)

theorem mem_insertDesc {z x : ResolvedEdit} {l : List ResolvedEdit}
    (h : z ∈ insertDesc x l) : z = x ∨ z ∈ l := by
  have := (insertDesc_perm x l).mem_iff.mp h
  simpa using this

theorem insertDesc_sorted {x : ResolvedEdit} {l : List ResolvedEdit}
    (h : l.Pairwise (fun a b => b.start ≤ a.start)) :
    (insertDesc x l).Pairwise (fun a b => b.start ≤ a.start) := by
  induction l with
  | nil => simp [insertDesc]
  | cons y ys ih =>
    obtain ⟨hy, hys⟩ := List.pairwise_cons.mp h
    unfold insertDesc
    by_cases hc : y.start < x.start
    · rw [if_pos hc]
      refine List.Pairwise.cons ?_ h
      intro z hz
      rcases List.mem_cons.mp hz with rfl | hz2
      · omega
      · have := hy z hz2
        omega
    · rw [if_neg hc]
      refine List.Pairwise.cons ?_ (ih hys)
      intro z hz
      rcases mem_insertDesc hz with rfl | hz2
      · omega
      · exact hy z hz2

theorem sortDesc_sorted (l : List ResolvedEdit) :
    (sortDesc l).Pairwise (fun a b => b.start ≤ a.start) := by
  induction l with
  | nil => simp [sortDesc]
  | cons x xs ih =>
    unfold sortDesc
    exact insertDesc_sorted ih

theorem overlapCheck_false_pairwise :
    ∀ {l : List ResolvedEdit}, l.Pairwise (fun a b => b.start ≤ a.start) →
    overlapCheck l = false → l.Pairwise (fun a b => b.stop ≤ a.start) := by
  intro l
  induction l with
  | nil => intro _ _; exact List.Pairwise.nil
  | cons a t ih =>
    intro hs ho
    cases t with
    | nil => simp
    | cons b rest =>
      unfold overlapCheck at ho
      simp only [Bool.or_eq_false_iff, decide_eq_false_iff_not] at ho
      obtain ⟨hab, hrest⟩ := ho
      have hs' := List.Pairwise.of_cons hs
      have ihp := ih hs' hrest
      refine List.Pairwise.cons ?_ ihp
      intro z hz
      rcases List.mem_cons.mp hz with rfl | hz2
      · omega
      · have h1 : z.stop ≤ b.start := (List.pairwise_cons.mp ihp).1 z hz2
        have h2 : b.start ≤ a.start :=
          (List.pairwise_cons.mp hs).1 b (List.mem_cons_self _ _)
        omega

theorem not_intersects_of_sep {a b : ResolvedEdit} (h : b.stop ≤ a.start) :
    ¬ intersects a b := by
  intro hx
  omega

theorem not_intersects_symm :
    ∀ {a b : ResolvedEdit}, ¬ intersects a b → ¬ intersects b a := by
  intro a b h hx
  exact h (by omega)

theorem overlapCheck_false_disjoint {rs : List ResolvedEdit}
    (hs : overlapCheck (sortDesc rs) = false) :
    rs.Pairwise (fun a b => ¬ intersects a b) := by
  have h1 := overlapCheck_false_pairwise (sortDesc_sorted rs) hs
  have h2 : (sortDesc rs).Pairwise (fun a b => ¬ intersects a b) :=
    h1.imp (fun h => not_intersects_of_sep h)
  exact ((sortDesc_perm rs).pairwise_iff (fun h => not_intersects_symm h)).mp h2

theorem batch_overlap_err {B : Backend} {src : List Char} {edits : List BatchEdit}
    {tree : TSNode} {rs : List ResolvedEdit}
    (hp : B.parse src = .ok tree) (hr : resolveEdits B src tree edits = .ok rs)
    (ho : overlapCheck (sortDesc rs) = true) :
    batch B src edits = .error overlapErr := by
  unfold batch
  rw [hp]
  dsimp only
  rw [hr]
  dsimp only
  rw [if_pos ho]

/-! ### Claim C3: every intersecting pair aborts the batch -/

/-- Claim C3: if any two of the resolved ranges of a batch intersect — in
particular when one range strictly contains the other — `batch` fails with
the overlapping-edits error and performs no splice: the adjacent-pair scan of
the descending-sorted ranges detects every intersecting pair, not only
adjacent ones. -/
theorem C3_overlap_detection (B : Backend) (src : List Char) (edits : List BatchEdit)
    (tree : TSNode) (rs : List ResolvedEdit) (i j : Nat) :
    B.parse src = .ok tree →
    resolveEdits B src tree edits = .ok rs →
    ∀ (hi : i < rs.length) (hj : j < rs.length), i ≠ j →
    intersects (rs.get ⟨i, hi⟩) (rs.get ⟨j, hj⟩) →
    batch B src edits = .error overlapErr := by
  intro hp hr hi hj hij hint
  cases ho : overlapCheck (sortDesc rs) with
  | true => exact batch_overlap_err hp hr ho
  | false =>
    exfalso
    have hdisj := overlapCheck_false_disjoint ho
    have hget := List.pairwise_iff_get.mp hdisj
    rcases Nat.lt_or_ge i j with hlt | hge
    · exact hget ⟨i, hi⟩ ⟨j, hj⟩ hlt hint
    · have hlt : j < i := by omega
      exact hget ⟨j, hj⟩ ⟨i, hi⟩ hlt (by
        have := hint
        unfold intersects at this ⊢
        omega)

/-- Concrete exercise of C3: the `inner` range 2..5 is strictly contained in
the `outer` range 0..10, and the pair is non-adjacent in no order here but
the batch still fails with the overlapping-edits error before any splice. -/
theorem C3_overlap_detection_witness :
    batch toyOverlap (("0123456789").data)
      [{ symbol := ("outer"), action := .Replace, content := some (("A").data) },
       { symbol := ("inner"), action := .Replace, content := some (("B").data) }] =
      .error overlapErr := by
  exact C3_overlap_detection toyOverlap (("0123456789").data)
    [{ symbol := ("outer"), action := .Replace, content := some (("A").data) },
     { symbol := ("inner"), action := .Replace, content := some (("B").data) }]
    (TSNode.mk ("source_file") 0 10 0 false [])
    [{ start := 0, stop := 10, replacement := ("A").data },
     { start := 2, stop := 5, replacement := ("B").data }]
    0 1 rfl rfl (by decide) (by decide) (by decide) (by decide)

/-! ### Claim C4: batch order-independence -/

theorem resolveEdits_cons_ok {B : Backend} {src : List Char} {tree : TSNode}
    {e : BatchEdit} {rest : List BatchEdit} {rs : List ResolvedEdit}
    (h : resolveEdits B src tree (e :: rest) = .ok rs) :
    ∃ r rs1, resolveOne B src tree e = .ok r ∧
      resolveEdits B src tree rest = .ok rs1 ∧ rs = r :: rs1 := by
  unfold resolveEdits at h
  cases h1 : resolveOne B src tree e with
  | error er => rw [h1] at h; simp at h
  | ok r =>
    rw [h1] at h
    dsimp only at h
    cases h2 : resolveEdits B src tree rest with
    | error er => rw [h2] at h; simp at h
    | ok rs1 =>
      rw [h2] at h
      simp only [Except.ok.injEq] at h
      exact ⟨r, rs1, rfl, rfl, h.symm⟩

theorem resolveEdits_cons_ok_intro {B : Backend} {src : List Char} {tree : TSNode}
    {e : BatchEdit} {rest : List BatchEdit} {r : ResolvedEdit} {rs1 : List ResolvedEdit}
    (h1 : resolveOne B src tree e = .ok r)
    (h2 : resolveEdits B src tree rest = .ok rs1) :
    resolveEdits B src tree (e :: rest) = .ok (r :: rs1) := by
  unfold resolveEdits
  rw [h1]
  dsimp only
  rw [h2]

theorem resolveEdits_perm {B : Backend} {src : List Char} {tree : TSNode}
    {l l' : List BatchEdit} (hperm : l.Perm l') :
    ∀ {rs : List ResolvedEdit}, resolveEdits B src tree l = .ok rs →
    ∃ rs', resolveEdits B src tree l' = .ok rs' ∧ rs.Perm rs' := by
  induction hperm with
  | nil => exact fun h => ⟨_, h, List.Perm.refl _⟩
  | cons x hp ih =>
    intro rs h
    obtain ⟨r, rs1, h1, h2, h3⟩ := resolveEdits_cons_ok h
    obtain ⟨rs1', h2', hperm1⟩ := ih h2
    subst h3
    exact ⟨r :: rs1', resolveEdits_cons_ok_intro h1 h2', hperm1.cons r⟩
  | swap x y l =>
    intro rs h
    obtain ⟨ry, rsy, h1, h2, h3⟩ := resolveEdits_cons_ok h
    obtain ⟨rx, rsx, h4, h5, h6⟩ := resolveEdits_cons_ok h2
    subst h3
    subst h6
    exact ⟨rx :: ry :: rsx,
      resolveEdits_cons_ok_intro h4 (resolveEdits_cons_ok_intro h1 h5),
      List.Perm.swap rx ry rsx⟩
  | trans h12 h23 ih12 ih23 =>
    intro rs h
    obtain ⟨rs2, h2, hp2⟩ := ih12 h
    obtain ⟨rs3, h3, hp3⟩ := ih23 h2
    exact ⟨rs3, h3, hp2.trans hp3⟩

theorem distinct_starts {rs : List ResolvedEdit}
    (hne : ∀ r ∈ rs, r.start < r.stop)
    (hdisj : rs.Pairwise (fun a b => ¬ intersects a b)) :
    rs.Pairwise (fun a b => a.start ≠ b.start) := by
  refine hdisj.imp_of_mem ?_
  intro a b ha hb hab heq
  have h1 := hne a ha
  have h2 := hne b hb
  exact hab (by omega)

theorem ne_start_symm :
    ∀ {a b : ResolvedEdit}, a.start ≠ b.start → b.start ≠ a.start := by
  intro a b h
  omega

theorem sortDesc_eq_of_perm {rs rs' : List ResolvedEdit} (hperm : rs.Perm rs')
    (hdist : rs.Pairwise (fun a b => a.start ≠ b.start)) :
    sortDesc rs = sortDesc rs' := by
  haveI : IsAntisymm ResolvedEdit (fun a b => b.start < a.start) :=
    ⟨fun a b h1 h2 => absurd h1 (by omega)⟩
  have hd1 : (sortDesc rs).Pairwise (fun a b => a.start ≠ b.start) :=
    ((sortDesc_perm rs).pairwise_iff (fun h => ne_start_symm h)).mpr hdist
  have hd2 : (sortDesc rs').Pairwise (fun a b => a.start ≠ b.start) :=
    ((sortDesc_perm rs').pairwise_iff (fun h => ne_start_symm h)).mpr
      ((hperm.pairwise_iff (fun h => ne_start_symm h)).mp hdist)
  have hgt1 : (sortDesc rs).Pairwise (fun a b => b.start < a.start) :=
    ((sortDesc_sorted rs).and hd1).imp (fun h => by omega)
  have hgt2 : (sortDesc rs').Pairwise (fun a b => b.start < a.start) :=
    ((sortDesc_sorted rs').and hd2).imp (fun h => by omega)
  exact List.eq_of_perm_of_sorted
    ((sortDesc_perm rs).trans (hperm.trans (sortDesc_perm rs').symm)) hgt1 hgt2

/-- Claim C4: for a fixed set of batch descriptors whose resolved ranges are
pairwise non-intersecting (and nonempty, as symbol and body ranges always
are), `batch` produces the same result for every permutation of the
descriptor list: resolution happens per-descriptor against the pristine
source and tree, and the splices are applied in descending order of resolved
start byte, an order independent of the input order. -/
theorem C4_batch_order_independence (B : Backend) (src : List Char)
    (edits edits' : List BatchEdit) (tree : TSNode) (rs : List ResolvedEdit) :
    B.parse src = .ok tree →
    resolveEdits B src tree edits = .ok rs →
    edits.Perm edits' →
    (∀ r ∈ rs, r.start < r.stop) →
    rs.Pairwise (fun a b => ¬ intersects a b) →
    batch B src edits' = batch B src edits := by
  intro hp hr hperm hne hdisj
  obtain ⟨rs', hr', hperm_rs⟩ := resolveEdits_perm hperm hr
  have hsort : sortDesc rs = sortDesc rs' :=
    sortDesc_eq_of_perm hperm_rs (distinct_starts hne hdisj)
  unfold batch
  rw [hp]
  dsimp only
  rw [hr, hr']
  dsimp only
  rw [hsort]

/-- Concrete exercise of C4: replacing `left` (bytes 0..3) and `right`
(bytes 5..9) of `"aaa btwob x"` yields the same output in either descriptor
order. -/
theorem C4_batch_order_independence_witness :
    batch toyTwo twoSource [editLeft, editRight] = .ok (("pq buv x").data) ∧
    batch toyTwo twoSource [editRight, editLeft] =
      batch toyTwo twoSource [editLeft, editRight] := by
  refine ⟨rfl, ?_⟩
  exact C4_batch_order_independence toyTwo twoSource [editLeft, editRight]
    [editRight, editLeft] (TSNode.mk ("source_file") 0 11 0 false [])
    [{ start := 0, stop := 3, replacement := ("pq").data },
     { start := 5, stop := 9, replacement := ("uv").data }]
    rfl rfl (List.Perm.swap editRight editLeft []) (by decide) (by decide)

end Codeview
